import Mathlib

/-!
Verification of the two core data structures of the repository:

* `PodRegistry` (src/string_storage.go): a capacity-bounded bidirectional
  map `PodName ↔ PodID` with FIFO-by-last-write eviction.
* `PodStore` (src/unnamed/part_005): a namespace/name-indexed store of Pod
  metadata with conjunctive label-selector queries returning sorted IPs.

Go maps are embedded as association lists with map-extensional operations
(`alLookup`, `alInsert`, `alDelete`); Go slices as Lean lists.  A Go
runtime panic (out-of-range index, negative `make` capacity) is embedded
as `Option.none`.
-/

section AssocList

variable {α : Type} {β : Type} [DecidableEq α]

/-- Go map read `m[k]` (without the zero-value default): the value bound to
`k`, if any. -/
def alLookup (m : List (α × β)) (k : α) : Option β :=
  match m with
  | [] => none
  | (k', v) :: rest => if k' = k then some v else alLookup rest k

/-- Go `delete(m, k)`: remove the binding of `k` (all entries with key `k`,
so that the result is again a well-formed map). -/
def alDelete (m : List (α × β)) (k : α) : List (α × β) :=
  match m with
  | [] => []
  | (k', v) :: rest => if k' = k then alDelete rest k else (k', v) :: alDelete rest k

/-- Go map write `m[k] = v`. -/
def alInsert (m : List (α × β)) (k : α) (v : β) : List (α × β) :=
  alDelete m k ++ [(k, v)]

/-- The keys of a map. -/
def keys : List (α × β) → List α
  | [] => []
  | (k, _) :: rest => k :: keys rest

theorem mem_keys {m : List (α × β)} {k : α} : k ∈ keys m ↔ ∃ v, (k, v) ∈ m := by
  induction m with
  | nil => simp [keys]
  | cons p rest ih =>
    obtain ⟨a, b⟩ := p
    simp only [keys, List.mem_cons]
    constructor
    · rintro (h | h)
      · exact ⟨b, Or.inl (by simp [h])⟩
      · rcases ih.mp h with ⟨v, hv⟩
        exact ⟨v, Or.inr hv⟩
    · rintro ⟨v, hv⟩
      rcases hv with hv | hv
      · exact Or.inl (congrArg Prod.fst hv)
      · exact Or.inr (ih.mpr ⟨v, hv⟩)

theorem keys_append (m₁ m₂ : List (α × β)) :
    keys (m₁ ++ m₂) = keys m₁ ++ keys m₂ := by
  induction m₁ with
  | nil => rfl
  | cons p rest ih =>
    obtain ⟨a, b⟩ := p
    simp [keys, ih]

theorem alLookup_alDelete (m : List (α × β)) (k k' : α) :
    alLookup (alDelete m k) k' = if k' = k then none else alLookup m k' := by
  induction m with
  | nil => simp [alDelete, alLookup]
  | cons p rest ih =>
    obtain ⟨a, b⟩ := p
    simp only [alDelete]
    by_cases hak : a = k
    · rw [if_pos hak, ih]
      by_cases hk : k' = k
      · simp [hk]
      · have hak' : ¬ a = k' := fun h => hk (h ▸ hak)
        simp [alLookup, hk, hak']
    · rw [if_neg hak]
      by_cases hk' : a = k'
      · subst hk'
        simp [alLookup, hak]
      · simp [alLookup, hk', ih]

theorem alLookup_append (m₁ m₂ : List (α × β)) (k : α) :
    alLookup (m₁ ++ m₂) k =
      (match alLookup m₁ k with
       | some v => some v
       | none => alLookup m₂ k) := by
  induction m₁ with
  | nil => rfl
  | cons p rest ih =>
    obtain ⟨a, b⟩ := p
    by_cases hak : a = k <;> simp [alLookup, hak, ih]

theorem alLookup_alInsert (m : List (α × β)) (k : α) (v : β) (k' : α) :
    alLookup (alInsert m k v) k' = if k' = k then some v else alLookup m k' := by
  rw [alInsert, alLookup_append, alLookup_alDelete]
  by_cases h : k' = k
  · simp [h, alLookup]
  · have hk : ¬ k = k' := fun hh => h hh.symm
    rcases hm : alLookup m k' with _ | w <;> simp [h, hm, alLookup, hk]

theorem mem_keys_alDelete (m : List (α × β)) (k k' : α) :
    k' ∈ keys (alDelete m k) ↔ k' ∈ keys m ∧ k' ≠ k := by
  induction m with
  | nil => simp [alDelete, keys]
  | cons p rest ih =>
    obtain ⟨a, b⟩ := p
    simp only [alDelete]
    by_cases hak : a = k
    · rw [if_pos hak, ih]
      simp only [keys, List.mem_cons]
      constructor
      · rintro ⟨h1, h2⟩
        exact ⟨Or.inr h1, h2⟩
      · rintro ⟨h1 | h1, h2⟩
        · exact absurd (h1.trans hak) h2
        · exact ⟨h1, h2⟩
    · rw [if_neg hak]
      simp only [keys, List.mem_cons]
      rw [ih]
      constructor
      · rintro (h1 | ⟨h1, h2⟩)
        · exact ⟨Or.inl h1, fun hh => hak (h1.symm.trans hh)⟩
        · exact ⟨Or.inr h1, h2⟩
      · rintro ⟨h1 | h1, h2⟩
        · exact Or.inl h1
        · exact Or.inr ⟨h1, h2⟩

theorem keys_alInsert (m : List (α × β)) (k : α) (v : β) :
    keys (alInsert m k v) = keys (alDelete m k) ++ [k] := by
  simp [alInsert, keys_append, keys]

theorem mem_keys_alInsert (m : List (α × β)) (k : α) (v : β) (k' : α) :
    k' ∈ keys (alInsert m k v) ↔ k' ∈ keys m ∨ k' = k := by
  rw [keys_alInsert]
  simp only [List.mem_append, List.mem_singleton, mem_keys_alDelete]
  constructor
  · rintro (⟨h, _⟩ | h)
    · exact Or.inl h
    · exact Or.inr h
  · rintro (h | h)
    · by_cases hk : k' = k
      · exact Or.inr hk
      · exact Or.inl ⟨h, hk⟩
    · exact Or.inr h

theorem nodup_keys_alDelete (m : List (α × β)) (k : α)
    (h : (keys m).Nodup) : (keys (alDelete m k)).Nodup := by
  induction m with
  | nil => simp [alDelete, keys]
  | cons p rest ih =>
    obtain ⟨a, b⟩ := p
    simp only [keys, List.nodup_cons] at h
    simp only [alDelete]
    by_cases hak : a = k
    · rw [if_pos hak]
      exact ih h.2
    · rw [if_neg hak]
      simp only [keys, List.nodup_cons]
      exact ⟨fun hmem => h.1 ((mem_keys_alDelete rest k a).mp hmem).1, ih h.2⟩

theorem nodup_keys_alInsert (m : List (α × β)) (k : α) (v : β)
    (h : (keys m).Nodup) : (keys (alInsert m k v)).Nodup := by
  rw [keys_alInsert]
  refine List.Nodup.append (nodup_keys_alDelete m k h) (List.nodup_singleton k) ?_
  intro x hx hx'
  rw [List.mem_singleton] at hx'
  subst hx'
  exact ((mem_keys_alDelete m x x).mp hx).2 rfl

theorem alDelete_of_not_mem {m : List (α × β)} {k : α}
    (h : k ∉ keys m) : alDelete m k = m := by
  induction m with
  | nil => rfl
  | cons p rest ih =>
    obtain ⟨a, b⟩ := p
    simp only [keys, List.mem_cons, not_or] at h
    simp only [alDelete]
    rw [if_neg (fun hh : a = k => h.1 hh.symm), ih h.2]

theorem length_alDelete_of_mem {m : List (α × β)} {k : α}
    (hnd : (keys m).Nodup) (h : k ∈ keys m) :
    (alDelete m k).length + 1 = m.length := by
  induction m with
  | nil => simp [keys] at h
  | cons p rest ih =>
    obtain ⟨a, b⟩ := p
    simp only [keys, List.nodup_cons] at hnd
    simp only [keys, List.mem_cons] at h
    simp only [alDelete]
    by_cases hak : a = k
    · rw [if_pos hak]
      rw [alDelete_of_not_mem (hak ▸ hnd.1)]
      simp
    · rw [if_neg hak]
      rcases h with h | h
      · exact absurd h.symm hak
      · simp only [List.length_cons]
        rw [← ih hnd.2 h]

theorem alLookup_eq_none_iff (m : List (α × β)) (k : α) :
    alLookup m k = none ↔ k ∉ keys m := by
  induction m with
  | nil => simp [alLookup, keys]
  | cons p rest ih =>
    obtain ⟨a, b⟩ := p
    by_cases hak : a = k
    · simp [alLookup, keys, hak]
    · have hka : ¬ k = a := fun hh => hak hh.symm
      simp [alLookup, keys, hak, hka, ih]

theorem alLookup_isSome_iff (m : List (α × β)) (k : α) :
    (∃ v, alLookup m k = some v) ↔ k ∈ keys m := by
  rcases h : alLookup m k with _ | v
  · rw [alLookup_eq_none_iff] at h
    simp [h]
  · have hk : k ∈ keys m := by
      by_contra hk
      rw [← alLookup_eq_none_iff] at hk
      rw [hk] at h
      cases h
    simp [hk]

theorem alLookup_of_mem {m : List (α × β)} {k : α} {v : β}
    (hnd : (keys m).Nodup) (h : (k, v) ∈ m) : alLookup m k = some v := by
  induction m with
  | nil => cases h
  | cons p rest ih =>
    obtain ⟨a, b⟩ := p
    simp only [keys, List.nodup_cons] at hnd
    rcases List.mem_cons.mp h with h | h
    · injection h with h1 h2
      subst h1
      subst h2
      simp [alLookup]
    · have hak : a ≠ k := by
        intro hak
        subst hak
        exact hnd.1 (mem_keys.mpr ⟨v, h⟩)
      simp [alLookup, hak, ih hnd.2 h]

theorem mem_of_alLookup {m : List (α × β)} {k : α} {v : β}
    (h : alLookup m k = some v) : (k, v) ∈ m := by
  induction m with
  | nil => cases h
  | cons p rest ih =>
    obtain ⟨a, b⟩ := p
    by_cases hak : a = k
    · subst hak
      have h' : some b = some v := by simpa [alLookup] using h
      have hb : b = v := by injection h'
      subst hb
      exact List.mem_cons_self _ _
    · simp only [alLookup, if_neg hak] at h
      exact List.mem_cons_of_mem _ (ih h)

end AssocList

/-! ## PodRegistry (src/string_storage.go) -/

/-- `PodName` wraps Podname and Namespace (src/string_storage.go:45). -/
structure PodName where
  Podname : String
  Namespace : String
deriving DecidableEq

/-- `PodID` wraps PodUuid and ContainerId (src/string_storage.go:51). -/
structure PodID where
  PodUuid : String
  ContainerId : String
deriving DecidableEq

/-- The state of a `PodRegistry` (src/string_storage.go:57).  The mutex is
not modelled: every exported method holds it for its whole body, so the
sequential semantics below is exactly the per-operation semantics. -/
structure PodRegistry where
  keyToValue : List (PodName × PodID)
  valueToKey : List (PodID × PodName)
  keyOrder : List PodName
  capacity : Int
deriving DecidableEq

/-- `NewPodRegistry` (src/string_storage.go:66).  `make([]PodName, 0, c)`
panics for a negative `c`, embedded as `none`; otherwise the registry is
returned with empty maps and no validation of `capacity`. -/
def NewPodRegistry (capacity : Int) : Option PodRegistry :=
  if capacity < 0 then none
  else some { keyToValue := [], valueToKey := [], keyOrder := [], capacity := capacity }

/-- `removeFromKeyOrder` (src/string_storage.go:131): remove the first
occurrence of `key` from the slice (the loop breaks after one removal). -/
def removeFromKeyOrder (l : List PodName) (key : PodName) : List PodName :=
  match l with
  | [] => []
  | k :: rest => if k = key then rest else k :: removeFromKeyOrder rest key

/-- `deleteInternal` (src/string_storage.go:113). -/
def PodRegistry.deleteInternal (pr : PodRegistry) (key : PodName) : PodRegistry :=
  match alLookup pr.keyToValue key with
  | none => pr
  | some value =>
    { pr with
      keyToValue := alDelete pr.keyToValue key,
      valueToKey := alDelete pr.valueToKey value,
      keyOrder := removeFromKeyOrder pr.keyOrder key }

/-- `Set` (src/string_storage.go:76).  The eviction branch reads
`pr.keyOrder[0]`, which panics on an empty slice: embedded as `none`. -/
def PodRegistry.Set (pr : PodRegistry) (key : PodName) (value : PodID) :
    Option PodRegistry :=
  match alLookup pr.keyToValue key with
  | some oldValue =>
    some { pr with
      valueToKey := alInsert (alDelete pr.valueToKey oldValue) value key,
      keyToValue := alInsert pr.keyToValue key value,
      keyOrder := removeFromKeyOrder pr.keyOrder key ++ [key] }
  | none =>
    if (pr.keyToValue.length : Int) ≥ pr.capacity then
      match pr.keyOrder with
      | [] => none
      | oldestKey :: _ =>
        let pr' := pr.deleteInternal oldestKey
        some { pr' with
          keyToValue := alInsert pr'.keyToValue key value,
          valueToKey := alInsert pr'.valueToKey value key,
          keyOrder := pr'.keyOrder ++ [key] }
    else
      some { pr with
        keyToValue := alInsert pr.keyToValue key value,
        valueToKey := alInsert pr.valueToKey value key,
        keyOrder := pr.keyOrder ++ [key] }

/-- `Delete` (src/string_storage.go:105). -/
def PodRegistry.Delete (pr : PodRegistry) (key : PodName) : PodRegistry :=
  pr.deleteInternal key

/-- `GetValueByKey` (src/string_storage.go:143), as the optional result
(value, exists). -/
def PodRegistry.GetValueByKey (pr : PodRegistry) (key : PodName) : Option PodID :=
  alLookup pr.keyToValue key

/-- `GetKeyByValue` (src/string_storage.go:152). -/
def PodRegistry.GetKeyByValue (pr : PodRegistry) (value : PodID) : Option PodName :=
  alLookup pr.valueToKey value

/-- `Count` (src/string_storage.go:161). -/
def PodRegistry.Count (pr : PodRegistry) : Nat :=
  pr.keyToValue.length

/-- One observable call on the registry. -/
inductive RegOp where
  | set (key : PodName) (value : PodID)
  | del (key : PodName)
deriving DecidableEq

/-- Run a sequence of `Set`/`Delete` calls; `none` as soon as one panics. -/
def runOps (pr : PodRegistry) : List RegOp → Option PodRegistry
  | [] => some pr
  | RegOp.set k v :: rest =>
    match pr.Set k v with
    | none => none
    | some pr' => runOps pr' rest
  | RegOp.del k :: rest => runOps (pr.Delete k) rest

/-- The trace never calls `Set` with a value currently bound to a
different key (the precondition under which the registry is bijective;
the source file's header comment warns to mind value uniqueness). -/
def noValueSteal (pr : PodRegistry) : List RegOp → Bool
  | [] => true
  | RegOp.set k v :: rest =>
    (match alLookup pr.valueToKey v with
     | none => true
     | some k' => decide (k' = k)) &&
    (match pr.Set k v with
     | none => true
     | some pr' => noValueSteal pr' rest)
  | RegOp.del k :: rest => noValueSteal (pr.Delete k) rest

/-! ## Registry invariants -/

theorem removeFromKeyOrder_eq_erase (l : List PodName) (k : PodName) :
    removeFromKeyOrder l k = l.erase k := by
  induction l with
  | nil => rfl
  | cons a rest ih =>
    by_cases h : a = k <;> simp [removeFromKeyOrder, List.erase_cons, h, ih]

theorem alDelete_length_le {α β : Type} [DecidableEq α]
    (m : List (α × β)) (k : α) : (alDelete m k).length ≤ m.length := by
  induction m with
  | nil => simp [alDelete]
  | cons p rest ih =>
    obtain ⟨a, b⟩ := p
    by_cases h : a = k <;> simp [alDelete, h] <;> omega

theorem keys_length {α β : Type} (m : List (α × β)) :
    (keys m).length = m.length := by
  induction m with
  | nil => rfl
  | cons p rest ih =>
    obtain ⟨a, b⟩ := p
    simp [keys, ih]

theorem nodup_of_nodup_keys {α β : Type} [DecidableEq α] {m : List (α × β)}
    (h : (keys m).Nodup) : m.Nodup := by
  induction m with
  | nil => simp
  | cons p rest ih =>
    obtain ⟨a, b⟩ := p
    simp only [keys, List.nodup_cons] at h
    exact List.nodup_cons.mpr ⟨fun hm => h.1 (mem_keys.mpr ⟨b, hm⟩), ih h.2⟩

theorem length_eq_of_nodup_of_mem_iff {γ : Type} {l₁ l₂ : List γ}
    (h₁ : l₁.Nodup) (h₂ : l₂.Nodup) (h : ∀ x, x ∈ l₁ ↔ x ∈ l₂) :
    l₁.length = l₂.length :=
  le_antisymm
    (List.subperm_of_subset h₁ (fun x hx => (h x).mp hx)).length_le
    (List.subperm_of_subset h₂ (fun x hx => (h x).mpr hx)).length_le

/-- Structural invariant on the key side: no duplicate forward keys, no
duplicate order entries, and the order slice holds exactly the live keys. -/
def KeyInv (pr : PodRegistry) : Prop :=
  (keys pr.keyToValue).Nodup ∧ pr.keyOrder.Nodup ∧
    ∀ k, k ∈ pr.keyOrder ↔ k ∈ keys pr.keyToValue

/-- Structural invariant on the value side: no duplicate reverse keys, and
the two maps are mutual inverses. -/
def ValInv (pr : PodRegistry) : Prop :=
  (keys pr.valueToKey).Nodup ∧
    ∀ k v, alLookup pr.keyToValue k = some v ↔ alLookup pr.valueToKey v = some k

theorem keyOrder_length_eq {pr : PodRegistry} (hK : KeyInv pr) :
    pr.keyOrder.length = pr.keyToValue.length := by
  obtain ⟨hf, ho, hord⟩ := hK
  have h := length_eq_of_nodup_of_mem_iff ho hf hord
  rw [keys_length] at h
  exact h

theorem length_eq_of_inverse {α β : Type} [DecidableEq α] [DecidableEq β]
    {f : List (α × β)} {r : List (β × α)}
    (hf : (keys f).Nodup) (hr : (keys r).Nodup)
    (hiff : ∀ k v, alLookup f k = some v ↔ alLookup r v = some k) :
    f.length = r.length := by
  have hfl : f.Nodup := nodup_of_nodup_keys hf
  have hrl : r.Nodup := nodup_of_nodup_keys hr
  have hnd1 : (f.map Prod.swap).Nodup := hfl.map Prod.swap_injective
  have hnd2 : (r.map Prod.swap).Nodup := hrl.map Prod.swap_injective
  have hsub1 : (f.map Prod.swap) ⊆ r := by
    intro x hx
    rcases List.mem_map.mp hx with ⟨⟨k, v⟩, hm, rfl⟩
    exact mem_of_alLookup ((hiff k v).mp (alLookup_of_mem hf hm))
  have hsub2 : (r.map Prod.swap) ⊆ f := by
    intro x hx
    rcases List.mem_map.mp hx with ⟨⟨v, k⟩, hm, rfl⟩
    exact mem_of_alLookup ((hiff k v).mpr (alLookup_of_mem hr hm))
  refine le_antisymm ?_ ?_
  · calc f.length = (f.map Prod.swap).length := (List.length_map _ _).symm
      _ ≤ r.length := (List.subperm_of_subset hnd1 hsub1).length_le
  · calc r.length = (r.map Prod.swap).length := (List.length_map _ _).symm
      _ ≤ f.length := (List.subperm_of_subset hnd2 hsub2).length_le

theorem deleteInternal_capacity (pr : PodRegistry) (k : PodName) :
    (pr.deleteInternal k).capacity = pr.capacity := by
  rcases hl : alLookup pr.keyToValue k with _ | v <;>
    simp [PodRegistry.deleteInternal, hl]

theorem deleteInternal_length_le (pr : PodRegistry) (k : PodName) :
    (pr.deleteInternal k).keyToValue.length ≤ pr.keyToValue.length := by
  rcases hl : alLookup pr.keyToValue k with _ | v <;>
    simp [PodRegistry.deleteInternal, hl, alDelete_length_le]

theorem keyInv_deleteInternal {pr : PodRegistry} (k : PodName) (h : KeyInv pr) :
    KeyInv (pr.deleteInternal k) := by
  rcases hl : alLookup pr.keyToValue k with _ | v
  · simpa [PodRegistry.deleteInternal, hl] using h
  · obtain ⟨hf, ho, hord⟩ := h
    simp only [PodRegistry.deleteInternal, hl]
    refine ⟨nodup_keys_alDelete _ _ hf, ?_, ?_⟩
    · rw [removeFromKeyOrder_eq_erase]
      exact ho.erase _
    · intro x
      rw [removeFromKeyOrder_eq_erase, ho.mem_erase_iff, mem_keys_alDelete]
      rw [hord x]
      exact ⟨fun hh => ⟨hh.2, hh.1⟩, fun hh => ⟨hh.2, hh.1⟩⟩

theorem valInv_deleteInternal {pr : PodRegistry} (k : PodName)
    (hV : ValInv pr) : ValInv (pr.deleteInternal k) := by
  rcases hl : alLookup pr.keyToValue k with _ | v
  · simpa [PodRegistry.deleteInternal, hl] using hV
  · obtain ⟨hr, hiff⟩ := hV
    simp only [PodRegistry.deleteInternal, hl]
    refine ⟨nodup_keys_alDelete _ _ hr, ?_⟩
    intro a b
    rw [alLookup_alDelete, alLookup_alDelete]
    by_cases hak : a = k
    · subst hak
      simp only [if_pos rfl]
      by_cases hbv : b = v
      · subst hbv
        rw [if_pos rfl]
        constructor <;> rintro ⟨⟩
      · rw [if_neg hbv]
        constructor
        · rintro ⟨⟩
        · intro hb
          have hfa : alLookup pr.keyToValue a = some b := (hiff a b).mpr hb
          rw [hl] at hfa
          injection hfa with hfa
          exact absurd hfa.symm hbv
    · rw [if_neg hak]
      by_cases hbv : b = v
      · subst hbv
        rw [if_pos rfl]
        constructor
        · intro ha
          have h1 : alLookup pr.valueToKey b = some a := (hiff a b).mp ha
          have h2 : alLookup pr.valueToKey b = some k := (hiff k b).mp hl
          rw [h1] at h2
          injection h2 with h2
          exact absurd h2 hak
        · rintro ⟨⟩
      · rw [if_neg hbv]
        exact hiff a b

theorem keyInv_insertFresh {pr : PodRegistry} (k : PodName) (v : PodID)
    (hK : KeyInv pr) (hl : alLookup pr.keyToValue k = none) :
    KeyInv ⟨alInsert pr.keyToValue k v, alInsert pr.valueToKey v k,
      pr.keyOrder ++ [k], pr.capacity⟩ := by
  obtain ⟨hf, ho, hord⟩ := hK
  have hkf : k ∉ keys pr.keyToValue := (alLookup_eq_none_iff _ _).mp hl
  have hko : k ∉ pr.keyOrder := fun hh => hkf ((hord k).mp hh)
  refine ⟨nodup_keys_alInsert _ _ _ hf, ?_, ?_⟩
  · refine List.Nodup.append ho (List.nodup_singleton k) ?_
    intro x hx hx'
    rw [List.mem_singleton] at hx'
    subst hx'
    exact hko hx
  · intro x
    rw [List.mem_append, List.mem_singleton, mem_keys_alInsert, hord x]

theorem keyInv_insertUpdate {pr : PodRegistry} (k : PodName) (v v₀ : PodID)
    (hK : KeyInv pr) (hl : alLookup pr.keyToValue k = some v₀) :
    KeyInv ⟨alInsert pr.keyToValue k v,
      alInsert (alDelete pr.valueToKey v₀) v k,
      removeFromKeyOrder pr.keyOrder k ++ [k], pr.capacity⟩ := by
  obtain ⟨hf, ho, hord⟩ := hK
  have hkf : k ∈ keys pr.keyToValue := by
    rw [← alLookup_isSome_iff]
    exact ⟨v₀, hl⟩
  refine ⟨nodup_keys_alInsert _ _ _ hf, ?_, ?_⟩
  · rw [removeFromKeyOrder_eq_erase]
    refine List.Nodup.append (ho.erase _) (List.nodup_singleton k) ?_
    intro x hx hx'
    rw [List.mem_singleton] at hx'
    subst hx'
    exact ((ho.mem_erase_iff).mp hx).1 rfl
  · intro x
    rw [removeFromKeyOrder_eq_erase, List.mem_append, List.mem_singleton,
      ho.mem_erase_iff, mem_keys_alInsert, hord x]
    constructor
    · rintro (⟨_, h⟩ | h)
      · exact Or.inl h
      · exact Or.inr h
    · rintro (h | h)
      · by_cases hx : x = k
        · exact Or.inr hx
        · exact Or.inl ⟨hx, h⟩
      · exact Or.inr h

theorem valInv_insertFresh {pr : PodRegistry} (k : PodName) (v : PodID)
    (hV : ValInv pr) (hl : alLookup pr.keyToValue k = none)
    (hguard : ∀ k', alLookup pr.valueToKey v = some k' → k' = k) :
    ValInv ⟨alInsert pr.keyToValue k v, alInsert pr.valueToKey v k,
      pr.keyOrder ++ [k], pr.capacity⟩ := by
  obtain ⟨hr, hiff⟩ := hV
  have hrv : alLookup pr.valueToKey v = none := by
    rcases hh : alLookup pr.valueToKey v with _ | k'
    · rfl
    · have hk' : k' = k := hguard k' hh
      subst hk'
      have : alLookup pr.keyToValue k' = some v := (hiff k' v).mpr hh
      rw [hl] at this
      cases this
  refine ⟨nodup_keys_alInsert _ _ _ hr, ?_⟩
  intro a b
  rw [alLookup_alInsert, alLookup_alInsert]
  by_cases ha : a = k
  · subst ha
    rw [if_pos rfl]
    by_cases hb : b = v
    · subst hb
      rw [if_pos rfl]
      simp
    · rw [if_neg hb]
      constructor
      · intro hh
        injection hh with hh
        exact absurd hh.symm hb
      · intro hh
        have : alLookup pr.keyToValue a = some b := (hiff a b).mpr hh
        rw [hl] at this
        cases this
  · rw [if_neg ha]
    by_cases hb : b = v
    · subst hb
      rw [if_pos rfl]
      constructor
      · intro hh
        have : alLookup pr.valueToKey b = some a := (hiff a b).mp hh
        rw [hrv] at this
        cases this
      · intro hh
        injection hh with hh
        exact absurd hh.symm ha
    · rw [if_neg hb]
      exact hiff a b

theorem valInv_insertUpdate {pr : PodRegistry} (k : PodName) (v v₀ : PodID)
    (hV : ValInv pr) (hl : alLookup pr.keyToValue k = some v₀)
    (hguard : ∀ k', alLookup pr.valueToKey v = some k' → k' = k) :
    ValInv ⟨alInsert pr.keyToValue k v,
      alInsert (alDelete pr.valueToKey v₀) v k,
      removeFromKeyOrder pr.keyOrder k ++ [k], pr.capacity⟩ := by
  obtain ⟨hr, hiff⟩ := hV
  refine ⟨nodup_keys_alInsert _ _ _ (nodup_keys_alDelete _ _ hr), ?_⟩
  intro a b
  rw [alLookup_alInsert, alLookup_alInsert, alLookup_alDelete]
  by_cases ha : a = k
  · subst ha
    rw [if_pos rfl]
    by_cases hb : b = v
    · subst hb
      rw [if_pos rfl]
      simp
    · rw [if_neg hb]
      constructor
      · intro hh
        injection hh with hh
        exact absurd hh.symm hb
      · by_cases hb0 : b = v₀
        · subst hb0
          rw [if_pos rfl]
          rintro ⟨⟩
        · rw [if_neg hb0]
          intro hh
          have : alLookup pr.keyToValue a = some b := (hiff a b).mpr hh
          rw [hl] at this
          injection this with this
          exact absurd this.symm hb0
  · rw [if_neg ha]
    by_cases hb : b = v
    · subst hb
      rw [if_pos rfl]
      constructor
      · intro hh
        have h1 : alLookup pr.valueToKey b = some a := (hiff a b).mp hh
        exact absurd (hguard a h1) ha
      · intro hh
        injection hh with hh
        exact absurd hh.symm ha
    · rw [if_neg hb]
      by_cases hb0 : b = v₀
      · subst hb0
        rw [if_pos rfl]
        constructor
        · intro hh
          have h1 : alLookup pr.valueToKey b = some a := (hiff a b).mp hh
          have h2 : alLookup pr.valueToKey b = some k := (hiff k b).mp hl
          rw [h1] at h2
          injection h2 with h2
          exact absurd h2 ha
        · rintro ⟨⟩
      · rw [if_neg hb0]
        exact hiff a b

theorem set_eq_update {pr : PodRegistry} {k : PodName} {v v₀ : PodID}
    (hl : alLookup pr.keyToValue k = some v₀) :
    pr.Set k v = some ⟨alInsert pr.keyToValue k v,
      alInsert (alDelete pr.valueToKey v₀) v k,
      removeFromKeyOrder pr.keyOrder k ++ [k], pr.capacity⟩ := by
  simp [PodRegistry.Set, hl]

theorem set_eq_freshLow {pr : PodRegistry} {k : PodName} {v : PodID}
    (hl : alLookup pr.keyToValue k = none)
    (hge : ¬ (pr.keyToValue.length : Int) ≥ pr.capacity) :
    pr.Set k v = some ⟨alInsert pr.keyToValue k v,
      alInsert pr.valueToKey v k, pr.keyOrder ++ [k], pr.capacity⟩ := by
  simp [PodRegistry.Set, hl, hge]

theorem set_eq_freshEvict {pr : PodRegistry} {k : PodName} {v : PodID}
    {oldest : PodName} {rest : List PodName}
    (hl : alLookup pr.keyToValue k = none)
    (hge : (pr.keyToValue.length : Int) ≥ pr.capacity)
    (ho : pr.keyOrder = oldest :: rest) :
    pr.Set k v = some ⟨alInsert (pr.deleteInternal oldest).keyToValue k v,
      alInsert (pr.deleteInternal oldest).valueToKey v k,
      (pr.deleteInternal oldest).keyOrder ++ [k],
      (pr.deleteInternal oldest).capacity⟩ := by
  simp [PodRegistry.Set, hl, hge, ho]

theorem set_eq_panic {pr : PodRegistry} {k : PodName} {v : PodID}
    (hl : alLookup pr.keyToValue k = none)
    (hge : (pr.keyToValue.length : Int) ≥ pr.capacity)
    (ho : pr.keyOrder = []) :
    pr.Set k v = none := by
  simp [PodRegistry.Set, hl, hge, ho]

theorem deleteInternal_lookup_none {pr : PodRegistry} {x k : PodName}
    (h : alLookup pr.keyToValue k = none) :
    alLookup (pr.deleteInternal x).keyToValue k = none := by
  rcases hl' : alLookup pr.keyToValue x with _ | w
  · simpa [PodRegistry.deleteInternal, hl'] using h
  · simp only [PodRegistry.deleteInternal, hl']
    rw [alLookup_alDelete]
    by_cases hk : k = x <;> simp [hk, h]

theorem deleteInternal_rev_guard {pr : PodRegistry} {x : PodName}
    {v : PodID} {k : PodName}
    (hg : ∀ k', alLookup pr.valueToKey v = some k' → k' = k) :
    ∀ k', alLookup (pr.deleteInternal x).valueToKey v = some k' → k' = k := by
  intro k' hk'
  rcases hl' : alLookup pr.keyToValue x with _ | w
  · simp only [PodRegistry.deleteInternal, hl'] at hk'
    exact hg k' hk'
  · simp only [PodRegistry.deleteInternal, hl'] at hk'
    rw [alLookup_alDelete] at hk'
    by_cases hv : v = w
    · rw [if_pos hv] at hk'
      cases hk'
    · rw [if_neg hv] at hk'
      exact hg k' hk'

theorem set_inv_some {pr : PodRegistry} {k : PodName} {v : PodID}
    {pr' : PodRegistry} (hK : KeyInv pr) (hV : ValInv pr)
    (hg : ∀ k', alLookup pr.valueToKey v = some k' → k' = k)
    (hset : pr.Set k v = some pr') : KeyInv pr' ∧ ValInv pr' := by
  rcases hl : alLookup pr.keyToValue k with _ | v₀
  · by_cases hge : (pr.keyToValue.length : Int) ≥ pr.capacity
    · rcases ho : pr.keyOrder with _ | ⟨oldest, rest⟩
      · rw [set_eq_panic hl hge ho] at hset
        cases hset
      · rw [set_eq_freshEvict hl hge ho] at hset
        injection hset with hset
        subst hset
        exact ⟨keyInv_insertFresh k v (keyInv_deleteInternal oldest hK)
            (deleteInternal_lookup_none hl),
          valInv_insertFresh k v (valInv_deleteInternal oldest hV)
            (deleteInternal_lookup_none hl) (deleteInternal_rev_guard hg)⟩
    · rw [set_eq_freshLow hl hge] at hset
      injection hset with hset
      subst hset
      exact ⟨keyInv_insertFresh k v hK hl, valInv_insertFresh k v hV hl hg⟩
  · rw [set_eq_update hl] at hset
    injection hset with hset
    subst hset
    exact ⟨keyInv_insertUpdate k v v₀ hK hl, valInv_insertUpdate k v v₀ hV hl hg⟩

theorem set_keyInv {pr : PodRegistry} {k : PodName} {v : PodID}
    {pr' : PodRegistry} (hK : KeyInv pr)
    (hset : pr.Set k v = some pr') : KeyInv pr' := by
  rcases hl : alLookup pr.keyToValue k with _ | v₀
  · by_cases hge : (pr.keyToValue.length : Int) ≥ pr.capacity
    · rcases ho : pr.keyOrder with _ | ⟨oldest, rest⟩
      · rw [set_eq_panic hl hge ho] at hset
        cases hset
      · rw [set_eq_freshEvict hl hge ho] at hset
        injection hset with hset
        subst hset
        exact keyInv_insertFresh k v (keyInv_deleteInternal oldest hK)
          (deleteInternal_lookup_none hl)
    · rw [set_eq_freshLow hl hge] at hset
      injection hset with hset
      subst hset
      exact keyInv_insertFresh k v hK hl
  · rw [set_eq_update hl] at hset
    injection hset with hset
    subst hset
    exact keyInv_insertUpdate k v v₀ hK hl

theorem set_capacity {pr : PodRegistry} {k : PodName} {v : PodID}
    {pr' : PodRegistry} (hset : pr.Set k v = some pr') :
    pr'.capacity = pr.capacity := by
  rcases hl : alLookup pr.keyToValue k with _ | v₀
  · by_cases hge : (pr.keyToValue.length : Int) ≥ pr.capacity
    · rcases ho : pr.keyOrder with _ | ⟨oldest, rest⟩
      · rw [set_eq_panic hl hge ho] at hset
        cases hset
      · rw [set_eq_freshEvict hl hge ho] at hset
        injection hset with hset
        subst hset
        exact deleteInternal_capacity pr oldest
    · rw [set_eq_freshLow hl hge] at hset
      injection hset with hset
      subst hset
      rfl
  · rw [set_eq_update hl] at hset
    injection hset with hset
    subst hset
    rfl

theorem length_alInsert_of_not_mem {α β : Type} [DecidableEq α]
    {m : List (α × β)} {k : α} (v : β) (h : k ∉ keys m) :
    (alInsert m k v).length = m.length + 1 := by
  simp [alInsert, alDelete_of_not_mem h]

theorem length_alInsert_of_mem {α β : Type} [DecidableEq α]
    {m : List (α × β)} {k : α} (v : β) (hnd : (keys m).Nodup)
    (h : k ∈ keys m) : (alInsert m k v).length = m.length := by
  have := length_alDelete_of_mem hnd h
  simp [alInsert]
  omega

theorem deleteInternal_length_of_mem {pr : PodRegistry} {x : PodName}
    (hf : (keys pr.keyToValue).Nodup) (hx : x ∈ keys pr.keyToValue) :
    (pr.deleteInternal x).keyToValue.length + 1 = pr.keyToValue.length := by
  obtain ⟨w, hw⟩ := (alLookup_isSome_iff _ _).mpr hx
  simp only [PodRegistry.deleteInternal, hw]
  exact length_alDelete_of_mem hf hx

theorem set_count_le {pr : PodRegistry} {k : PodName} {v : PodID}
    {pr' : PodRegistry} (hK : KeyInv pr)
    (hle : (pr.keyToValue.length : Int) ≤ pr.capacity)
    (hset : pr.Set k v = some pr') :
    (pr'.keyToValue.length : Int) ≤ pr.capacity := by
  obtain ⟨hf, ho, hord⟩ := hK
  rcases hl : alLookup pr.keyToValue k with _ | v₀
  · have hkf : k ∉ keys pr.keyToValue := (alLookup_eq_none_iff _ _).mp hl
    by_cases hge : (pr.keyToValue.length : Int) ≥ pr.capacity
    · rcases ho' : pr.keyOrder with _ | ⟨oldest, rest⟩
      · rw [set_eq_panic hl hge ho'] at hset
        cases hset
      · rw [set_eq_freshEvict hl hge ho'] at hset
        injection hset with hset
        subst hset
        have hold : oldest ∈ keys pr.keyToValue :=
          (hord oldest).mp (ho' ▸ List.mem_cons_self _ _)
        have h1 := deleteInternal_length_of_mem hf hold
        have hkf₁ : k ∉ keys (pr.deleteInternal oldest).keyToValue :=
          (alLookup_eq_none_iff _ _).mp (deleteInternal_lookup_none hl)
        have h2 := length_alInsert_of_not_mem (m := (pr.deleteInternal oldest).keyToValue) v hkf₁
        simp only [h2]
        push_cast
        omega
    · rw [set_eq_freshLow hl hge] at hset
      injection hset with hset
      subst hset
      have h2 := length_alInsert_of_not_mem (m := pr.keyToValue) v hkf
      simp only [h2]
      push_cast
      omega
  · have hkf : k ∈ keys pr.keyToValue := (alLookup_isSome_iff _ _).mp ⟨v₀, hl⟩
    rw [set_eq_update hl] at hset
    injection hset with hset
    subst hset
    have h2 := length_alInsert_of_mem (m := pr.keyToValue) v hf hkf
    simp only [h2]
    exact hle

theorem set_isSome (pr : PodRegistry) (k : PodName) (v : PodID)
    (hK : KeyInv pr) (hpos : 1 ≤ pr.capacity) :
    ∃ pr', pr.Set k v = some pr' := by
  rcases hl : alLookup pr.keyToValue k with _ | v₀
  · by_cases hge : (pr.keyToValue.length : Int) ≥ pr.capacity
    · have hlen : pr.keyOrder.length = pr.keyToValue.length := keyOrder_length_eq hK
      have h1 : (1 : Int) ≤ (pr.keyToValue.length : Int) := le_trans hpos hge
      have h2 : 1 ≤ pr.keyOrder.length := by
        rw [hlen]
        exact_mod_cast h1
      rcases hko : pr.keyOrder with _ | ⟨oldest, rest⟩
      · rw [hko] at h2
        simp at h2
      · exact ⟨_, set_eq_freshEvict hl hge hko⟩
    · exact ⟨_, set_eq_freshLow hl hge⟩
  · exact ⟨_, set_eq_update hl⟩

theorem runOps_keyInv (ops : List RegOp) :
    ∀ pr : PodRegistry, KeyInv pr → 1 ≤ pr.capacity →
      (pr.keyToValue.length : Int) ≤ pr.capacity →
      ∃ pr', runOps pr ops = some pr' ∧ KeyInv pr' ∧
        pr'.capacity = pr.capacity ∧
        (pr'.keyToValue.length : Int) ≤ pr.capacity := by
  induction ops with
  | nil =>
    intro pr hK hpos hle
    exact ⟨pr, rfl, hK, rfl, hle⟩
  | cons op rest ih =>
    intro pr hK hpos hle
    cases op with
    | set k v =>
      obtain ⟨pr₁, hset⟩ := set_isSome pr k v hK hpos
      have hK₁ := set_keyInv hK hset
      have hcap₁ := set_capacity hset
      have hle₁ := set_count_le hK hle hset
      obtain ⟨pr', hrun, hK', hcap', hle'⟩ :=
        ih pr₁ hK₁ (by rw [hcap₁]; exact hpos) (by rw [hcap₁]; exact hle₁)
      refine ⟨pr', ?_, hK', by rw [hcap', hcap₁], by rw [hcap₁] at hle'; exact hle'⟩
      simp [runOps, hset, hrun]
    | del k =>
      have hK₁ := keyInv_deleteInternal k hK
      have hcap₁ : (pr.Delete k).capacity = pr.capacity := deleteInternal_capacity pr k
      have hle₁ : ((pr.Delete k).keyToValue.length : Int) ≤ pr.capacity := by
        have := deleteInternal_length_le pr k
        have h2 : ((pr.Delete k).keyToValue.length : Int) ≤ (pr.keyToValue.length : Int) := by
          exact_mod_cast this
        exact le_trans h2 hle
      obtain ⟨pr', hrun, hK', hcap', hle'⟩ :=
        ih (pr.Delete k) hK₁ (by rw [hcap₁]; exact hpos) (by rw [hcap₁]; exact hle₁)
      refine ⟨pr', ?_, hK', by rw [hcap', hcap₁], by rw [hcap₁] at hle'; exact hle'⟩
      simp [runOps, hrun]

theorem runOps_inv (ops : List RegOp) :
    ∀ pr : PodRegistry, KeyInv pr → ValInv pr →
      noValueSteal pr ops = true →
      ∀ pr', runOps pr ops = some pr' → KeyInv pr' ∧ ValInv pr' := by
  induction ops with
  | nil =>
    intro pr hK hV _ pr' hrun
    simp only [runOps, Option.some.injEq] at hrun
    subst hrun
    exact ⟨hK, hV⟩
  | cons op rest ih =>
    intro pr hK hV hsteal pr' hrun
    cases op with
    | set k v =>
      simp only [noValueSteal, Bool.and_eq_true] at hsteal
      obtain ⟨hg', hrest'⟩ := hsteal
      have hg : ∀ k', alLookup pr.valueToKey v = some k' → k' = k := by
        intro k' hk'
        rw [hk'] at hg'
        exact of_decide_eq_true hg'
      simp only [runOps] at hrun
      rcases hset : pr.Set k v with _ | pr₁
      · rw [hset] at hrun
        cases hrun
      · rw [hset] at hrun hrest'
        obtain ⟨hK₁, hV₁⟩ := set_inv_some hK hV hg hset
        exact ih pr₁ hK₁ hV₁ hrest' pr' hrun
    | del k =>
      simp only [noValueSteal] at hsteal
      simp only [runOps] at hrun
      exact ih _ (keyInv_deleteInternal k hK) (valInv_deleteInternal k hV)
        hsteal pr' hrun

/-- The bijection property of the spec: forward and reverse lookups are
mutual inverses for every present key, and the forward map, reverse map
and eviction-order slice have the same cardinality. -/
def BijProp (pr : PodRegistry) : Prop :=
  (∀ k v, pr.GetValueByKey k = some v → pr.GetKeyByValue v = some k) ∧
  pr.keyToValue.length = pr.valueToKey.length ∧
  pr.keyToValue.length = pr.keyOrder.length

theorem bijProp_of_inv {pr : PodRegistry} (hK : KeyInv pr) (hV : ValInv pr) :
    BijProp pr := by
  refine ⟨fun k v h => (hV.2 k v).mp h, ?_, ?_⟩
  · exact length_eq_of_inverse hK.1 hV.1 hV.2
  · exact (keyOrder_length_eq hK).symm

/-! ## PodStore (src/unnamed/part_005) -/

/-- `PodInfo` (labels plus the two address strings). -/
structure PodInfo where
  Labels : List (String × String)
  IPv4 : String
  IPv6 : String
deriving DecidableEq

/-- `IpInfo`: the projection returned by queries. -/
structure IpInfo where
  IPv4 : String
  IPv6 : String
deriving DecidableEq

/-- `PodStore`: a two-level map namespace → name → PodInfo. -/
structure PodStore where
  data : List (String × List (String × PodInfo))
deriving DecidableEq

/-- `NewPodStore`. -/
def NewPodStore : PodStore := ⟨[]⟩

/-- `AddPod`: ensure the namespace's inner map exists, then write the
entry (the inner map starts empty when the namespace is new). -/
def PodStore.AddPod (ps : PodStore) (ns name : String)
    (labels : List (String × String)) (ipv4 ipv6 : String) : PodStore :=
  let inner := (alLookup ps.data ns).getD []
  ⟨alInsert ps.data ns (alInsert inner name ⟨labels, ipv4, ipv6⟩)⟩

/-- `DeletePod`: delete the name from the namespace's inner map if the
namespace exists; if the inner map became empty, delete the namespace. -/
def PodStore.DeletePod (ps : PodStore) (ns name : String) : PodStore :=
  match alLookup ps.data ns with
  | none => ps
  | some inner =>
    let inner' := alDelete inner name
    if inner'.length = 0 then ⟨alDelete ps.data ns⟩
    else ⟨alInsert ps.data ns inner'⟩

/-- Go map index `m[k]` with the zero-value default: a missing key reads
as the empty string. -/
def mapIndex (m : List (String × String)) (k : String) : String :=
  (alLookup m k).getD ""

/-- `matchesSelector`: `labels[key] != value → false` over all selector
pairs, where `labels[key]` is the Go map index (zero value `""` when the
key is absent). -/
def matchesSelector (labels selector : List (String × String)) : Bool :=
  selector.all (fun p => mapIndex labels p.1 == p.2)

/-- The inner loop of `GetIPWithLabelSelector` over one namespace: collect
an `IpInfo` for each matching Pod. -/
def collectInner (selector : List (String × String)) :
    List (String × PodInfo) → List IpInfo
  | [] => []
  | (_, info) :: rest =>
    if matchesSelector info.Labels selector then
      ⟨info.IPv4, info.IPv6⟩ :: collectInner selector rest
    else collectInner selector rest

/-- The outer loop of `GetIPWithLabelSelector` over all namespaces. -/
def collectMatches (selector : List (String × String)) :
    List (String × List (String × PodInfo)) → List IpInfo
  | [] => []
  | (_, inner) :: rest => collectInner selector inner ++ collectMatches selector rest

/-- The sort key comparison of `GetIPWithLabelSelector`.  The source
compares `net.ParseIP(a.IPv4).String() < net.ParseIP(b.IPv4).String()`;
`ipKey` stands for the external standard-library renderer
`fun s => net.ParseIP(s).String()`, over which all results are proved. -/
def ipLE (ipKey : String → String) (a b : IpInfo) : Prop :=
  ipKey a.IPv4 ≤ ipKey b.IPv4

instance (ipKey : String → String) : DecidableRel (ipLE ipKey) :=
  fun a b => inferInstanceAs (Decidable (ipKey a.IPv4 ≤ ipKey b.IPv4))

instance (ipKey : String → String) : IsTotal IpInfo (ipLE ipKey) :=
  ⟨fun a b => le_total (ipKey a.IPv4) (ipKey b.IPv4)⟩

instance (ipKey : String → String) : IsTrans IpInfo (ipLE ipKey) :=
  ⟨fun _ _ _ hab hbc => le_trans hab hbc⟩

/-- `GetIPWithLabelSelector`: collect the matching Pods' addresses over
all namespaces, then sort.  `sort.Slice` rearranges the slice into a
permutation that is sorted for the comparator; it is embedded as an
insertion sort, which produces such a permutation. -/
def PodStore.GetIPWithLabelSelector (ps : PodStore) (ipKey : String → String)
    (selector : List (String × String)) : List IpInfo :=
  List.insertionSort (ipLE ipKey) (collectMatches selector ps.data)

/-- All stored PodInfos, across all namespaces. -/
def allPodInfos : List (String × List (String × PodInfo)) → List PodInfo
  | [] => []
  | (_, inner) :: rest => inner.map Prod.snd ++ allPodInfos rest

def PodStore.allPods (ps : PodStore) : List PodInfo :=
  allPodInfos ps.data

def toIpInfo (info : PodInfo) : IpInfo :=
  ⟨info.IPv4, info.IPv6⟩

/-- Point lookup of one Pod's stored record. -/
def PodStore.lookupPod (ps : PodStore) (ns name : String) : Option PodInfo :=
  match alLookup ps.data ns with
  | none => none
  | some inner => alLookup inner name

/-- One observable call on the store. -/
inductive PodOp where
  | add (ns name : String) (labels : List (String × String)) (ipv4 ipv6 : String)
  | del (ns name : String)

def runPodOps (ps : PodStore) : List PodOp → PodStore
  | [] => ps
  | PodOp.add ns n labels i4 i6 :: rest => runPodOps (ps.AddPod ns n labels i4 i6) rest
  | PodOp.del ns n :: rest => runPodOps (ps.DeletePod ns n) rest

/-- No namespace key maps to an empty inner map. -/
def NoEmptyNS (ps : PodStore) : Prop :=
  ∀ p ∈ ps.data, p.2 ≠ ([] : List (String × PodInfo))

theorem mem_of_mem_alDelete {α β : Type} [DecidableEq α]
    {m : List (α × β)} {k : α} {p : α × β}
    (h : p ∈ alDelete m k) : p ∈ m := by
  induction m with
  | nil => cases h
  | cons q rest ih =>
    obtain ⟨a, b⟩ := q
    simp only [alDelete] at h
    by_cases hak : a = k
    · rw [if_pos hak] at h
      exact List.mem_cons_of_mem _ (ih h)
    · rw [if_neg hak] at h
      rcases List.mem_cons.mp h with h | h
      · exact h ▸ List.mem_cons_self _ _
      · exact List.mem_cons_of_mem _ (ih h)

theorem collectInner_eq (sel : List (String × String))
    (inner : List (String × PodInfo)) :
    collectInner sel inner =
      ((inner.map Prod.snd).filter
        (fun info => matchesSelector info.Labels sel)).map toIpInfo := by
  induction inner with
  | nil => rfl
  | cons q rest ih =>
    obtain ⟨n, info⟩ := q
    by_cases hm : matchesSelector info.Labels sel <;>
      simp [collectInner, hm, ih, List.filter_cons, toIpInfo]

theorem collectMatches_eq (sel : List (String × String))
    (data : List (String × List (String × PodInfo))) :
    collectMatches sel data =
      ((allPodInfos data).filter
        (fun info => matchesSelector info.Labels sel)).map toIpInfo := by
  induction data with
  | nil => rfl
  | cons q rest ih =>
    obtain ⟨ns, inner⟩ := q
    simp [collectMatches, allPodInfos, collectInner_eq, ih, List.filter_append]

theorem getIP_sorted (ps : PodStore) (ipKey : String → String)
    (sel : List (String × String)) :
    List.Pairwise (ipLE ipKey) (ps.GetIPWithLabelSelector ipKey sel) :=
  List.sorted_insertionSort (ipLE ipKey) (collectMatches sel ps.data)

theorem getIP_perm (ps : PodStore) (ipKey : String → String)
    (sel : List (String × String)) :
    (ps.GetIPWithLabelSelector ipKey sel).Perm
      ((ps.allPods.filter (fun info => matchesSelector info.Labels sel)).map
        toIpInfo) := by
  unfold PodStore.GetIPWithLabelSelector PodStore.allPods
  rw [← collectMatches_eq]
  exact List.perm_insertionSort _ _

theorem getIP_mem_iff (ps : PodStore) (ipKey : String → String)
    (sel : List (String × String)) (i : IpInfo) :
    i ∈ ps.GetIPWithLabelSelector ipKey sel ↔
      ∃ info, info ∈ ps.allPods ∧
        matchesSelector info.Labels sel = true ∧ toIpInfo info = i := by
  rw [(getIP_perm ps ipKey sel).mem_iff]
  constructor
  · intro h
    rcases List.mem_map.mp h with ⟨info, hmem, hip⟩
    rcases List.mem_filter.mp hmem with ⟨h1, h2⟩
    exact ⟨info, h1, h2, hip⟩
  · rintro ⟨info, h1, h2, hip⟩
    exact List.mem_map.mpr ⟨info, List.mem_filter.mpr ⟨h1, h2⟩, hip⟩

theorem matchesSelector_iff (labels sel : List (String × String)) :
    matchesSelector labels sel = true ↔ ∀ p ∈ sel, mapIndex labels p.1 = p.2 := by
  simp [matchesSelector, List.all_eq_true]

/-- The spec's reading of selector matching, for comparison with the
source's `matchesSelector`: the Pod's label map contains key `k` with
value exactly `v`, for every selector pair `(k, v)`. -/
def specSelectorMatch (labels sel : List (String × String)) : Prop :=
  ∀ p ∈ sel, alLookup labels p.1 = some p.2

theorem deletePod_lookup_self (ps : PodStore) (ns n : String) :
    (ps.DeletePod ns n).lookupPod ns n = none := by
  rcases hd : alLookup ps.data ns with _ | inner
  · simp [PodStore.DeletePod, PodStore.lookupPod, hd]
  · simp only [PodStore.DeletePod, hd]
    by_cases hz : (alDelete inner n).length = 0
    · rw [if_pos hz]
      simp [PodStore.lookupPod, alLookup_alDelete]
    · rw [if_neg hz]
      simp [PodStore.lookupPod, alLookup_alInsert, alLookup_alDelete]

theorem deletePod_lookup_other (ps : PodStore) (ns n ns' n' : String)
    (h : ¬ (ns' = ns ∧ n' = n)) :
    (ps.DeletePod ns n).lookupPod ns' n' = ps.lookupPod ns' n' := by
  rcases hd : alLookup ps.data ns with _ | inner
  · simp [PodStore.DeletePod, hd]
  · simp only [PodStore.DeletePod, hd]
    by_cases hns : ns' = ns
    · subst hns
      have hn' : n' ≠ n := fun hh => h ⟨rfl, hh⟩
      by_cases hz : (alDelete inner n).length = 0
      · rw [if_pos hz]
        have hempty : alLookup inner n' = none := by
          rw [alLookup_eq_none_iff]
          intro hmem
          have hmem' : n' ∈ keys (alDelete inner n) :=
            (mem_keys_alDelete inner n n').mpr ⟨hmem, hn'⟩
          rw [List.length_eq_zero.mp hz] at hmem'
          cases hmem'
        simp [PodStore.lookupPod, alLookup_alDelete, hd, hempty]
      · rw [if_neg hz]
        simp [PodStore.lookupPod, alLookup_alInsert, alLookup_alDelete, hn', hd]
    · by_cases hz : (alDelete inner n).length = 0
      · rw [if_pos hz]
        simp [PodStore.lookupPod, alLookup_alDelete, hns]
      · rw [if_neg hz]
        simp [PodStore.lookupPod, alLookup_alInsert, hns]

theorem deletePod_no_empty_at (ps : PodStore) (ns n : String) :
    ∀ inner₂, alLookup (ps.DeletePod ns n).data ns = some inner₂ → inner₂ ≠ [] := by
  intro inner₂ hin
  rcases hd : alLookup ps.data ns with _ | inner
  · simp only [PodStore.DeletePod, hd] at hin
    cases hin
  · simp only [PodStore.DeletePod, hd] at hin
    by_cases hz : (alDelete inner n).length = 0
    · rw [if_pos hz] at hin
      rw [alLookup_alDelete] at hin
      simp at hin
    · rw [if_neg hz] at hin
      rw [alLookup_alInsert, if_pos rfl] at hin
      injection hin with hin
      subst hin
      intro hnil
      rw [hnil] at hz
      exact hz rfl

theorem addPod_noEmpty (ps : PodStore) (ns n : String)
    (labels : List (String × String)) (i4 i6 : String)
    (h : NoEmptyNS ps) : NoEmptyNS (ps.AddPod ns n labels i4 i6) := by
  intro p hp
  simp only [PodStore.AddPod] at hp
  rw [alInsert] at hp
  rcases List.mem_append.mp hp with hp | hp
  · exact h p (mem_of_mem_alDelete hp)
  · rw [List.mem_singleton] at hp
    subst hp
    simp [alInsert]

theorem deletePod_noEmpty (ps : PodStore) (ns n : String)
    (h : NoEmptyNS ps) : NoEmptyNS (ps.DeletePod ns n) := by
  intro p hp
  rcases hd : alLookup ps.data ns with _ | inner
  · simp only [PodStore.DeletePod, hd] at hp
    exact h p hp
  · simp only [PodStore.DeletePod, hd] at hp
    by_cases hz : (alDelete inner n).length = 0
    · rw [if_pos hz] at hp
      exact h p (mem_of_mem_alDelete hp)
    · rw [if_neg hz] at hp
      rw [alInsert] at hp
      rcases List.mem_append.mp hp with hp | hp
      · exact h p (mem_of_mem_alDelete hp)
      · rw [List.mem_singleton] at hp
        subst hp
        intro hnil
        simp only at hnil
        rw [hnil] at hz
        exact hz rfl

theorem deletePod_noop_ns (ps : PodStore) (ns n : String)
    (hne : NoEmptyNS ps) (habs : ps.lookupPod ns n = none) :
    ∀ ns', alLookup (ps.DeletePod ns n).data ns' = alLookup ps.data ns' := by
  intro ns'
  rcases hd : alLookup ps.data ns with _ | inner
  · simp [PodStore.DeletePod, hd]
  · have hinner : alLookup inner n = none := by
      simpa [PodStore.lookupPod, hd] using habs
    have hndel : alDelete inner n = inner :=
      alDelete_of_not_mem ((alLookup_eq_none_iff _ _).mp hinner)
    have hinne : inner ≠ [] := hne (ns, inner) (mem_of_alLookup hd)
    have hz : ¬ (alDelete inner n).length = 0 := by
      rw [hndel]
      intro h0
      exact hinne (List.length_eq_zero.mp h0)
    simp only [PodStore.DeletePod, hd]
    rw [if_neg hz]
    simp only [hndel]
    rw [alLookup_alInsert]
    by_cases hns : ns' = ns
    · rw [if_pos hns, hns, hd]
    · rw [if_neg hns]

theorem runPodOps_noEmpty (ops : List PodOp) :
    ∀ ps : PodStore, NoEmptyNS ps → NoEmptyNS (runPodOps ps ops) := by
  induction ops with
  | nil => intro ps h; exact h
  | cons op rest ih =>
    intro ps h
    cases op with
    | add ns n labels i4 i6 => exact ih _ (addPod_noEmpty ps ns n labels i4 i6 h)
    | del ns n => exact ih _ (deletePod_noEmpty ps ns n h)

/-! ## Claims -/

theorem keyInv_empty (c : Int) : KeyInv ⟨[], [], [], c⟩ :=
  ⟨by simp [keys], by simp, fun k => by simp [keys]⟩

theorem valInv_empty (c : Int) : ValInv ⟨[], [], [], c⟩ :=
  ⟨by simp [keys], fun k v => by simp [alLookup]⟩

def kA : PodName := ⟨"A", "ns"⟩
def kB : PodName := ⟨"B", "ns"⟩
def kC : PodName := ⟨"C", "ns"⟩
def kD : PodName := ⟨"D", "ns"⟩
def vA : PodID := ⟨"uA", "cA"⟩
def vA2 : PodID := ⟨"uA2", "cA2"⟩
def vB : PodID := ⟨"uB", "cB"⟩
def vC : PodID := ⟨"uC", "cC"⟩
def vD : PodID := ⟨"uD", "cD"⟩

/-- C1 (amended): for every sequence of `Set`/`Delete` calls from a fresh
registry in which no `Set` writes a value currently bound to a different
key, at every observation point the forward and reverse maps are mutual
inverses — `GetKeyByValue (GetValueByKey k) = k` for every present key —
and the forward map, reverse map and eviction-order slice all have the
same cardinality. -/
theorem c1_registry_bijection_invariant (c : Int) (pr₀ : PodRegistry)
    (ops : List RegOp) (pr : PodRegistry)
    (hnew : NewPodRegistry c = some pr₀)
    (hsteal : noValueSteal pr₀ ops = true)
    (hrun : runOps pr₀ ops = some pr) : BijProp pr := by
  have hpr₀ : pr₀ = ⟨[], [], [], c⟩ := by
    unfold NewPodRegistry at hnew
    by_cases hc : c < 0
    · rw [if_pos hc] at hnew
      cases hnew
    · rw [if_neg hc] at hnew
      injection hnew with h
      exact h.symm
  subst hpr₀
  obtain ⟨hK, hV⟩ :=
    runOps_inv ops _ (keyInv_empty c) (valInv_empty c) hsteal pr hrun
  exact bijProp_of_inv hK hV

def c1wOps : List RegOp :=
  [RegOp.set kA vA, RegOp.set kB vB, RegOp.del kA, RegOp.set kC vC]

theorem c1_registry_bijection_witness :
    BijProp ⟨[(kB, vB), (kC, vC)], [(vB, kB), (vC, kC)], [kB, kC], 3⟩ :=
  c1_registry_bijection_invariant 3 ⟨[], [], [], 3⟩ c1wOps
    ⟨[(kB, vB), (kC, vC)], [(vB, kB), (vC, kC)], [kB, kC], 3⟩
    rfl (by decide) (by decide)

def cexStealOps : List RegOp := [RegOp.set kA vA, RegOp.set kB vA]

def cexStealFinal : PodRegistry := ⟨[(kA, vA), (kB, vA)], [(vA, kB)], [kA, kB], 3⟩

/-- C1 counterexample: from a fresh capacity-3 registry, the two `Set`
calls `Set(kA, vA); Set(kB, vA)` (a value reused for a second key) leave
forward lookup of `kA` at `vA` while the reverse lookup of `vA` answers
`kB ≠ kA`, and the two maps have different cardinalities (2 vs 1). -/
theorem c1_registry_bijection_counterexample :
    runOps ⟨[], [], [], 3⟩ cexStealOps = some cexStealFinal ∧
    cexStealFinal.GetValueByKey kA = some vA ∧
    cexStealFinal.GetKeyByValue vA = some kB ∧
    kB ≠ kA ∧
    cexStealFinal.keyToValue.length = 2 ∧
    cexStealFinal.valueToKey.length = 1 := by
  decide

/-- C2 (amended): selector matching is conjunctive exact-match against the
Go map read of the Pod's labels, in which an absent key reads as the empty
string — so a selector pair `(k, "")` also matches Pods lacking key `k`;
extra labels are ignored, an empty selector matches every Pod, and the
query returns an IpInfo for a stored Pod iff the Pod matches. -/
theorem c2_label_selector_semantics (labels sel : List (String × String)) :
    (matchesSelector labels sel = true ↔ ∀ p ∈ sel, mapIndex labels p.1 = p.2) ∧
    matchesSelector labels [] = true ∧
    ∀ (ps : PodStore) (ipKey : String → String) (i : IpInfo),
      i ∈ ps.GetIPWithLabelSelector ipKey sel ↔
        ∃ info, info ∈ ps.allPods ∧
          matchesSelector info.Labels sel = true ∧ toIpInfo info = i :=
  ⟨matchesSelector_iff labels sel, rfl, fun ps ipKey i => getIP_mem_iff ps ipKey sel i⟩

def cexStore : PodStore := NewPodStore.AddPod "default" "pod1" [] "1.2.3.4" ""

def cexSel : List (String × String) := [("app", "")]

/-- C2 counterexample: the store holds one Pod with NO labels; the
selector `{app: ""}` matches it (the query returns its IpInfo), although
the Pod's label map does not contain the key `app` at all. -/
theorem c2_label_selector_counterexample :
    cexStore.GetIPWithLabelSelector (fun s => s) cexSel = [⟨"1.2.3.4", ""⟩] ∧
    cexStore.lookupPod "default" "pod1" = some ⟨[], "1.2.3.4", ""⟩ ∧
    ¬ specSelectorMatch [] cexSel := by
  refine ⟨rfl, rfl, ?_⟩
  intro h
  have h1 := h ("app", "") (by simp [cexSel])
  simp [alLookup] at h1

/-- C3 (amended): `NewPodRegistry` performs no explicit capacity
validation: a negative capacity fails only through the runtime panic of
the backing slice allocation, while capacity 0 silently returns a
registry on which every `Set` call panics. -/
theorem c3_construction_validation :
    (∀ c : Int, c < 0 → NewPodRegistry c = none) ∧
    NewPodRegistry 0 = some ⟨[], [], [], 0⟩ ∧
    ∀ (k : PodName) (v : PodID), PodRegistry.Set ⟨[], [], [], 0⟩ k v = none := by
  refine ⟨fun c hc => ?_, rfl, fun k v => ?_⟩
  · simp [NewPodRegistry, hc]
  · rfl

/-- C3 counterexample: at capacity 0 (a non-positive capacity) the
constructor does not reject the configuration — it returns a registry. -/
theorem c3_construction_counterexample :
    NewPodRegistry 0 = some ⟨[], [], [], 0⟩ := rfl

/-- C4: every sequence of `Set` calls on a registry built with positive
capacity completes and leaves `Count ≤ capacity`. -/
theorem c4_capacity_invariant (c : Int) (pr₀ : PodRegistry)
    (sets : List (PodName × PodID)) (hpos : 1 ≤ c)
    (hnew : NewPodRegistry c = some pr₀) :
    ∃ pr, runOps pr₀ (sets.map (fun p => RegOp.set p.1 p.2)) = some pr ∧
      (pr.Count : Int) ≤ c := by
  have hpr₀ : pr₀ = ⟨[], [], [], c⟩ := by
    unfold NewPodRegistry at hnew
    rw [if_neg (by omega : ¬ c < 0)] at hnew
    injection hnew with h
    exact h.symm
  subst hpr₀
  obtain ⟨pr, hrun, _, _, hle⟩ :=
    runOps_keyInv (sets.map (fun p => RegOp.set p.1 p.2)) ⟨[], [], [], c⟩
      (keyInv_empty c) hpos (by simp; omega)
  exact ⟨pr, hrun, hle⟩

theorem c4_capacity_invariant_witness :
    ∃ pr, runOps ⟨[], [], [], 2⟩
        (([(kA, vA), (kB, vB), (kC, vC)]).map (fun p => RegOp.set p.1 p.2)) =
          some pr ∧ (pr.Count : Int) ≤ 2 :=
  c4_capacity_invariant 2 ⟨[], [], [], 2⟩ [(kA, vA), (kB, vB), (kC, vC)]
    (by norm_num) rfl

def c5ops : List RegOp :=
  [RegOp.set kA vA, RegOp.set kB vB, RegOp.set kC vC,
    RegOp.set kA vA2, RegOp.set kD vD]

def c5final : PodRegistry :=
  ⟨[(kC, vC), (kA, vA2), (kD, vD)], [(vC, kC), (vA2, kA), (vD, kD)],
    [kC, kA, kD], 3⟩

/-- C5: `Set` on a present key removes the old value's reverse entry,
rebinds the key, and moves it to the most-recent end of the eviction
order; concretely with capacity 3, after A,B,C then `Set(A, vA2)` then D,
key B (not A) is evicted and A,C,D remain. -/
theorem c5_update_refresh :
    (∀ (pr : PodRegistry) (k : PodName) (v v₀ : PodID),
        alLookup pr.keyToValue k = some v₀ →
        pr.Set k v = some ⟨alInsert pr.keyToValue k v,
          alInsert (alDelete pr.valueToKey v₀) v k,
          removeFromKeyOrder pr.keyOrder k ++ [k], pr.capacity⟩) ∧
    (runOps ⟨[], [], [], 3⟩ c5ops = some c5final ∧
      c5final.GetValueByKey kB = none ∧
      c5final.GetValueByKey kA = some vA2 ∧
      c5final.GetValueByKey kC = some vC ∧
      c5final.GetValueByKey kD = some vD ∧
      c5final.Count = 3) :=
  ⟨fun _ _ _ _ hl => set_eq_update hl, by decide⟩

def c6ops : List RegOp :=
  [RegOp.set kA vA, RegOp.set kB vB, RegOp.set kC vC, RegOp.set kD vD]

def c6final : PodRegistry :=
  ⟨[(kB, vB), (kC, vC), (kD, vD)], [(vB, kB), (vC, kC), (vD, kD)],
    [kB, kC, kD], 3⟩

/-- C6: `Set` of a new key at capacity evicts exactly the head of the
eviction order from both maps before inserting; concretely with capacity
3 and Sets A,B,C,D, key A is evicted and exactly B,C,D remain. -/
theorem c6_fifo_eviction :
    (∀ (pr : PodRegistry) (k : PodName) (v : PodID) (oldest : PodName)
        (rest : List PodName),
        alLookup pr.keyToValue k = none →
        (pr.keyToValue.length : Int) ≥ pr.capacity →
        pr.keyOrder = oldest :: rest →
        pr.Set k v = some ⟨alInsert (pr.deleteInternal oldest).keyToValue k v,
          alInsert (pr.deleteInternal oldest).valueToKey v k,
          (pr.deleteInternal oldest).keyOrder ++ [k],
          (pr.deleteInternal oldest).capacity⟩) ∧
    (runOps ⟨[], [], [], 3⟩ c6ops = some c6final ∧
      c6final.GetValueByKey kA = none ∧
      c6final.GetValueByKey kB = some vB ∧
      c6final.GetValueByKey kC = some vC ∧
      c6final.GetValueByKey kD = some vD ∧
      c6final.Count = 3 ∧ c6final.keyOrder = [kB, kC, kD]) :=
  ⟨fun _ _ _ _ _ hl hge ho => set_eq_freshEvict hl hge ho, by decide⟩

/-- C7: the query output contains exactly one IpInfo per matching stored
Pod across all namespaces (it is a permutation of the projections of the
matching Pods) and is pairwise sorted ascending by the rendered IPv4 key,
for every renderer `ipKey` — in particular for the source's
`net.ParseIP(·).String()`. -/
theorem c7_query_sorted_output (ps : PodStore) (ipKey : String → String)
    (sel : List (String × String)) :
    List.Pairwise (ipLE ipKey) (ps.GetIPWithLabelSelector ipKey sel) ∧
    (ps.GetIPWithLabelSelector ipKey sel).Perm
      ((ps.allPods.filter (fun info => matchesSelector info.Labels sel)).map
        toIpInfo) :=
  ⟨getIP_sorted ps ipKey sel, getIP_perm ps ipKey sel⟩

/-- C8: `DeletePod` removes exactly the (namespace, name) entry and is a
no-op otherwise; it never leaves the deleted namespace bound to an empty
inner map, on a pod-absent delete the namespace map is unchanged, and no
store reachable by `AddPod`/`DeletePod` from fresh has an empty inner
map. -/
theorem c8_namespace_cleanup :
    (∀ (ps : PodStore) (ns n : String),
        (ps.DeletePod ns n).lookupPod ns n = none) ∧
    (∀ (ps : PodStore) (ns n ns' n' : String), ¬ (ns' = ns ∧ n' = n) →
        (ps.DeletePod ns n).lookupPod ns' n' = ps.lookupPod ns' n') ∧
    (∀ (ps : PodStore) (ns n : String) (inner : List (String × PodInfo)),
        alLookup (ps.DeletePod ns n).data ns = some inner → inner ≠ []) ∧
    (∀ (ps : PodStore) (ns n : String), NoEmptyNS ps →
        ps.lookupPod ns n = none →
        ∀ ns', alLookup (ps.DeletePod ns n).data ns' = alLookup ps.data ns') ∧
    (∀ ops : List PodOp, NoEmptyNS (runPodOps NewPodStore ops)) :=
  ⟨deletePod_lookup_self, deletePod_lookup_other, deletePod_no_empty_at,
    deletePod_noop_ns,
    fun ops => runPodOps_noEmpty ops NewPodStore
      (fun p hp => absurd hp (List.not_mem_nil p))⟩

/-- C9: `Delete` of an absent key is a no-op (the whole state, hence also
`Count`, is unchanged) and not an error; `Delete` of a present key removes
the forward binding, the reverse binding of its value, and the order
entry. -/
theorem c9_idempotent_delete :
    (∀ (pr : PodRegistry) (k : PodName),
        alLookup pr.keyToValue k = none → pr.Delete k = pr) ∧
    (∀ (pr : PodRegistry) (k : PodName) (v : PodID),
        alLookup pr.keyToValue k = some v → pr.keyOrder.Nodup →
        (pr.Delete k).GetValueByKey k = none ∧
        (pr.Delete k).GetKeyByValue v = none ∧
        k ∉ (pr.Delete k).keyOrder) := by
  constructor
  · intro pr k hl
    simp [PodRegistry.Delete, PodRegistry.deleteInternal, hl]
  · intro pr k v hl hnd
    refine ⟨?_, ?_, ?_⟩
    · simp [PodRegistry.Delete, PodRegistry.deleteInternal, hl,
        PodRegistry.GetValueByKey, alLookup_alDelete]
    · simp [PodRegistry.Delete, PodRegistry.deleteInternal, hl,
        PodRegistry.GetKeyByValue, alLookup_alDelete]
    · simp only [PodRegistry.Delete, PodRegistry.deleteInternal, hl]
      rw [removeFromKeyOrder_eq_erase]
      intro hmem
      exact ((hnd.mem_erase_iff).mp hmem).1 rfl

/-- C10: a registry constructed with capacity ≤ 0 (construction succeeds
exactly at capacity 0) panics on its first `Set`: the eviction branch is
taken with an empty order slice and the index `keyOrder[0]` is out of
bounds — `Set` is not total for non-positive capacity. -/
theorem c10_set_panics_on_nonpositive_capacity (c : Int) (hc : c ≤ 0)
    (pr : PodRegistry) (hnew : NewPodRegistry c = some pr)
    (k : PodName) (v : PodID) : pr.Set k v = none := by
  unfold NewPodRegistry at hnew
  by_cases hneg : c < 0
  · rw [if_pos hneg] at hnew
    cases hnew
  · rw [if_neg hneg] at hnew
    injection hnew with hnew
    subst hnew
    have hc0 : c = 0 := le_antisymm hc (not_lt.mp hneg)
    subst hc0
    exact set_eq_panic rfl (by norm_num) rfl

theorem c10_set_panics_witness :
    PodRegistry.Set ⟨[], [], [], 0⟩ kB vB = none :=
  c10_set_panics_on_nonpositive_capacity 0 (le_refl 0) ⟨[], [], [], 0⟩ rfl kB vB
